import Mathlib

/-!
# Tamper-evident conversation ledger — verification of the core

A shallow embedding of `platform_sdk/tier0_core/ledger.py`: the canonical
JSON encoder, the SHA-256 digest function, the `LedgerEntry` model, the
in-memory `MockLedgerProvider` (append / get_entry / get_conversation /
verify_chain), the public `append_turn` API, and the head-read step of the
immudb provider's `_sync_append`.

Machine words are `Nat` reduced mod `2^32` where the Python code relies on
32-bit arithmetic (inside SHA-256); strings are Lean `String`s, UTF-8
encoded to byte lists exactly where the Python code calls `.encode()`.
All definitions are executable so concrete runs can be checked by `decide`.
-/

set_option maxRecDepth 100000

namespace Ledger

/-- Reduce to a 32-bit word, mirroring Python's implicit 32-bit arithmetic
inside `hashlib.sha256`. -/
def w32 (n : Nat) : Nat := n % 4294967296

/-- Right-rotation of a 32-bit word by `k` places. -/
def rotr (k n : Nat) : Nat := (n >>> k) ||| w32 (n <<< (32 - k))

/-- SHA-256 small sigma 0. -/
def ssig0 (x : Nat) : Nat := (rotr 7 x) ^^^ (rotr 18 x) ^^^ (x >>> 3)

/-- SHA-256 small sigma 1. -/
def ssig1 (x : Nat) : Nat := (rotr 17 x) ^^^ (rotr 19 x) ^^^ (x >>> 10)

/-- SHA-256 big sigma 0. -/
def bsig0 (x : Nat) : Nat := (rotr 2 x) ^^^ (rotr 13 x) ^^^ (rotr 22 x)

/-- SHA-256 big sigma 1. -/
def bsig1 (x : Nat) : Nat := (rotr 6 x) ^^^ (rotr 11 x) ^^^ (rotr 25 x)

/-- The 64 SHA-256 round constants. -/
def K64 : List Nat :=
  [1116352408, 1899447441, 3049323471, 3921009573, 961987163,
   1508970993, 2453635748, 2870763221, 3624381080, 310598401,
   607225278, 1426881987, 1925078388, 2162078206, 2614888103,
   3248222580, 3835390401, 4022224774, 264347078, 604807628,
   770255983, 1249150122, 1555081692, 1996064986, 2554220882,
   2821834349, 2952996808, 3210313671, 3336571891, 3584528711,
   113926993, 338241895, 666307205, 773529912, 1294757372,
   1396182291, 1695183700, 1986661051, 2177026350, 2456956037,
   2730485921, 2820302411, 3259730800, 3345764771, 3516065817,
   3600352804, 4094571909, 275423344, 430227734, 506948616,
   659060556, 883997877, 958139571, 1322822218, 1537002063,
   1747873779, 1955562222, 2024104815, 2227730452, 2361852424,
   2428436474, 2756734187, 3204031479, 3329325298]

/-- The eight 32-bit words of a SHA-256 state. -/
structure Hash8 where
  a : Nat
  b : Nat
  c : Nat
  d : Nat
  e : Nat
  f : Nat
  g : Nat
  h : Nat
deriving Repr, DecidableEq

/-- SHA-256 initial hash value. -/
def initH : Hash8 :=
  ⟨1779033703, 3144134277, 1013904242, 2773480762,
   1359893119, 2600822924, 528734635, 1541459225⟩

/-- One SHA-256 round on state `s` with round constant `k` and schedule
word `w`. -/
def round (s : Hash8) (k w : Nat) : Hash8 :=
  let ch := (s.e &&& s.f) ^^^ ((s.e ^^^ 4294967295) &&& s.g)
  let maj := (s.a &&& s.b) ^^^ (s.a &&& s.c) ^^^ (s.b &&& s.c)
  let t1 := w32 (s.h + bsig1 s.e + ch + k + w)
  let t2 := w32 (bsig0 s.a + maj)
  ⟨w32 (t1 + t2), s.a, s.b, s.c, w32 (s.d + t1), s.e, s.f, s.g⟩

/-- Componentwise 32-bit addition of two states. -/
def addH (x y : Hash8) : Hash8 :=
  ⟨w32 (x.a + y.a), w32 (x.b + y.b), w32 (x.c + y.c), w32 (x.d + y.d),
   w32 (x.e + y.e), w32 (x.f + y.f), w32 (x.g + y.g), w32 (x.h + y.h)⟩

/-- Pack bytes into 32-bit words, big-endian, four at a time. -/
def bytesToWords : List Nat → List Nat
  | b0 :: b1 :: b2 :: b3 :: rest =>
      (((b0 * 256 + b1) * 256 + b2) * 256 + b3) :: bytesToWords rest
  | _ => []

/-- Extend a 16-word block to the 64-word message schedule; `n` is the
number of words still to generate. -/
def scheduleLoop : Nat → Array Nat → Array Nat
  | 0, ws => ws
  | n + 1, ws =>
      let i := ws.size
      let v := w32 (ssig1 (ws.getD (i - 2) 0) + ws.getD (i - 7) 0 +
                    ssig0 (ws.getD (i - 15) 0) + ws.getD (i - 16) 0)
      scheduleLoop n (ws.push v)

/-- Compress one 64-byte block into the running state. -/
def compressBlock (st : Hash8) (block : List Nat) : Hash8 :=
  let ws := (scheduleLoop 48 (Array.mk (bytesToWords block))).toList
  addH st ((K64.zip ws).foldl (fun s kw => round s kw.1 kw.2) st)

/-- Big-endian byte rendering: `k` bytes of `n`. -/
def beBytes : Nat → Nat → List Nat
  | 0, _ => []
  | k + 1, n => beBytes k (n / 256) ++ [n % 256]

/-- SHA-256 padding: `0x80`, zeros to 56 mod 64, then the bit length as
eight big-endian bytes. -/
def pad (msg : List Nat) : List Nat :=
  let len := msg.length
  let zeros := (119 - len % 64) % 64
  msg ++ [128] ++ List.replicate zeros 0 ++ beBytes 8 (8 * len)

/-- Split a byte string into 64-byte blocks; the fuel argument (at least
the byte length) keeps the recursion structural so it reduces in the
kernel. -/
def blocksGo : Nat → List Nat → List (List Nat)
  | 0, _ => []
  | _, [] => []
  | fuel + 1, b :: rest => ((b :: rest).take 64) :: blocksGo fuel ((b :: rest).drop 64)

/-- Split a byte string into 64-byte blocks. -/
def blocks (bs : List Nat) : List (List Nat) := blocksGo bs.length bs

/-- SHA-256 of a byte string, as the final eight-word state. -/
def sha256 (msg : List Nat) : Hash8 :=
  (blocks (pad msg)).foldl compressBlock initH

/-- The sixteen lowercase hex digit characters. -/
def hexDigit (n : Nat) : Char :=
  if n < 10 then Char.ofNat (48 + n) else Char.ofNat (87 + n)

/-- Lowercase hex rendering: `k` digits of `n`, most significant first. -/
def hexChars : Nat → Nat → List Char
  | 0, _ => []
  | k + 1, n => hexChars k (n / 16) ++ [hexDigit (n % 16)]

/-- The 64-character lowercase hex rendering of a SHA-256 state, as
produced by `hashlib.sha256(...).hexdigest()`. -/
def hexOfHash (s : Hash8) : List Char :=
  hexChars 8 s.a ++ hexChars 8 s.b ++ hexChars 8 s.c ++ hexChars 8 s.d ++
  hexChars 8 s.e ++ hexChars 8 s.f ++ hexChars 8 s.g ++ hexChars 8 s.h

/-- Hex digest as computed by `hashlib.sha256(msg).hexdigest()`: a
64-character lowercase hex string. -/
def sha256Hex (msg : List Nat) : String :=
  String.mk (hexOfHash (sha256 msg))

/-- FIPS 180 test vector: the empty message. -/
theorem sha256Hex_empty :
    sha256Hex [] =
    "e3b0c44298fc1c149afbf4c8996fb92427ae41e4649b934ca495991b7852b855" := by
  decide

/-- FIPS 180 test vector: "abc". -/
theorem sha256Hex_abc :
    sha256Hex [97, 98, 99] =
    "ba7816bf8f01cfea414140de5dae2223b00361a396177a9cb410ff61f20015ad" := by
  decide

/-- One character escaped as in Python's `json.dumps` with its default
`ensure_ascii=True`: short escapes for quote, backslash and the five named
controls; `\uXXXX` (with a surrogate pair beyond the BMP) for the other
controls and for every non-ASCII character; all else passes through. -/
def jsonEscapeChar (c : Char) : List Char :=
  let n := c.toNat
  if c = '"' then ['\\', '"']
  else if c = '\\' then ['\\', '\\']
  else if c = '\n' then ['\\', 'n']
  else if c = '\r' then ['\\', 'r']
  else if c = '\t' then ['\\', 't']
  else if n = 8 then ['\\', 'b']
  else if n = 12 then ['\\', 'f']
  else if n < 32 || 127 ≤ n then
    if n ≤ 65535 then '\\' :: 'u' :: hexChars 4 n
    else
      ('\\' :: 'u' :: hexChars 4 (55296 + (n - 65536) / 1024)) ++
      ('\\' :: 'u' :: hexChars 4 (56320 + (n - 65536) % 1024))
  else [c]

/-- A JSON string literal: opening quote, escaped characters, closing
quote. -/
def jsonQuote (s : String) : List Char :=
  '"' :: (s.toList.map jsonEscapeChar).flatten ++ ['"']

/-- UTF-8 bytes of one character, as produced by Python's
`str.encode()`. -/
def utf8Char (c : Char) : List Nat :=
  let n := c.toNat
  if n < 128 then [n]
  else if n < 2048 then [192 + n / 64, 128 + n % 64]
  else if n < 65536 then [224 + n / 4096, 128 + (n / 64) % 64, 128 + n % 64]
  else [240 + n / 262144, 128 + (n / 4096) % 64, 128 + (n / 64) % 64,
        128 + n % 64]

/-- UTF-8 encoding of a character sequence. -/
def utf8Encode (cs : List Char) : List Nat := (cs.map utf8Char).flatten

/-- Canonical JSON of the five chain-relevant fields, exactly as
`json.dumps({...}, sort_keys=True, separators=(",", ":"))` renders it:
keys in sorted order (`content`, `conversation_id`, `prev_digest`,
`role`, `turn_index`), no whitespace. -/
def canonicalChars (prev_digest conversation_id : String) (turn_index : Nat)
    (role content : String) : List Char :=
  "\x7b\"content\":".toList ++ jsonQuote content ++
  ",\"conversation_id\":".toList ++ jsonQuote conversation_id ++
  ",\"prev_digest\":".toList ++ jsonQuote prev_digest ++
  ",\"role\":".toList ++ jsonQuote role ++
  ",\"turn_index\":".toList ++ (Nat.repr turn_index).toList ++ ['\x7d']

/-- Canonical UTF-8 byte encoding of the five chain-relevant fields. -/
def canonicalBytes (prev_digest conversation_id : String) (turn_index : Nat)
    (role content : String) : List Nat :=
  utf8Encode (canonicalChars prev_digest conversation_id turn_index role content)

/-- One immutable conversation turn, after `LedgerEntry` in the source.
The source's `id` (a fresh UUID) and `timestamp` (wall clock, advisory
only) are environment-supplied values that no chain rule or claim reads;
they are left out of the embedding. Metadata is modelled as an
association list standing for the Python `dict`. -/
structure LedgerEntry where
  conversation_id : String := ""
  turn_index : Nat := 0
  role : String := ""
  content : String := ""
  metadata : List (String × String) := []
  prev_digest : String := ""
  digest : String := ""
deriving Repr, DecidableEq

/-- Digest of an entry's canonical form, after `_compute_digest`: SHA-256
hex of the canonical JSON of exactly the five fields
`prev_digest, conversation_id, turn_index, role, content`. -/
def computeDigest (e : LedgerEntry) : String :=
  sha256Hex (canonicalBytes e.prev_digest e.conversation_id e.turn_index
    e.role e.content)

/-- Cross-check with CPython: the canonical JSON text of the first
example entry, byte-for-byte. -/
theorem canonicalChars_example :
    String.mk (canonicalChars "" "c1" 0 "user" "Hi") =
    "\x7b\"content\":\"Hi\",\"conversation_id\":\"c1\",\"prev_digest\":\"\",\"role\":\"user\",\"turn_index\":0\x7d" := by
  decide

/-- Cross-check with CPython: digest of the genesis example entry. -/
theorem computeDigest_example0 :
    computeDigest { conversation_id := "c1", role := "user", content := "Hi" } =
    "c1f9f85683bd7d1590b2f1842ba652b2bcc8de78ed1481c740225a989b8f2fb6" := by
  decide

/-- Cross-check with CPython: digest of the second example entry, whose
canonical form embeds the first digest as `prev_digest`. -/
theorem computeDigest_example1 :
    computeDigest { conversation_id := "c1", turn_index := 1,
                    role := "assistant", content := "Hello!",
                    prev_digest := "c1f9f85683bd7d1590b2f1842ba652b2bcc8de78ed1481c740225a989b8f2fb6" } =
    "77378f0c91708b8f04a5e7649561ebe2420fecbf9cdbe392134e1b058c4756eb" := by
  decide

/-- Cross-check with CPython: escaping of quotes, control characters and
non-ASCII characters (here U+00E9, U+007F, U+20AC) in the canonical
form. -/
theorem computeDigest_example_unicode :
    computeDigest { conversation_id := "cé", role := "user",
                    content := "say \"hi\"\n\x7f€" } =
    "eddd02bb5a7b3b4f2300b6e550d2d1853b11f0aab5268e48448f0c861635c2b7" := by
  decide

/-- Cross-check with CPython: astral characters escape as a UTF-16
surrogate pair (U+1F600 becomes a pair of `\uXXXX` escapes). -/
theorem computeDigest_example_astral :
    computeDigest { conversation_id := "c1", role := "user",
                    content := "smile 😀" } =
    "cbc8d44adca3e2d9f9d953f9dd522b5e106b32ff3d1a3485ce087e2e020eccc0" := by
  decide

/-- The in-memory store of `MockLedgerProvider`: conversation id to its
list of entries in turn order (a missing key reads as the empty list,
matching `dict.get(cid, [])`). -/
def Store : Type := String → List LedgerEntry

/-- A provider with no conversations. -/
def emptyStore : Store := fun _ => []

/-- Replace one conversation's entry list (the effect of mutating the
list held under `cid` in the Python dict). -/
def setTurns (s : Store) (cid : String) (v : List LedgerEntry) : Store :=
  fun c => if c = cid then v else s c

/-- The append step of `MockLedgerProvider.append`: read the current
head (the last stored entry), assign `turn_index` and `prev_digest`,
compute the digest, and store the entry at the end of the conversation.
Returns the populated entry and the updated store. -/
def mockAppend (s : Store) (entry : LedgerEntry) : LedgerEntry × Store :=
  let turns := s entry.conversation_id
  let e1 :=
    match turns.getLast? with
    | some last => { entry with turn_index := last.turn_index + 1,
                                prev_digest := last.digest }
    | none => { entry with turn_index := 0, prev_digest := "" }
  let e2 := { e1 with digest := computeDigest e1 }
  (e2, setTurns s entry.conversation_id (turns ++ [e2]))

/-- Lookup of `MockLedgerProvider.get_entry`. The index is an `Int`
because the Python argument may be negative; the guard
`0 <= turn_index < len(turns)` rejects negatives before any list
indexing can wrap around. -/
def getEntry (s : Store) (cid : String) (turn_index : Int) : Option LedgerEntry :=
  let turns := s cid
  if 0 ≤ turn_index ∧ turn_index < (turns.length : Int) then
    turns[turn_index.toNat]?
  else
    none

/-- Pagination of `MockLedgerProvider.get_conversation`:
`turns[offset : offset + limit]`. -/
def getConversation (s : Store) (cid : String) (limit offset : Nat) :
    List LedgerEntry :=
  ((s cid).drop offset).take limit

/-- Failure message of the digest check, after
`f"turn \x7bi\x7d: digest mismatch"`. -/
def digestMismatchMsg (i : Nat) : String :=
  "turn " ++ Nat.repr i ++ ": digest mismatch"

/-- Failure message of the link check, after
`f"turn \x7bi\x7d: prev_digest chain broken"`. -/
def chainBrokenMsg (i : Nat) : String :=
  "turn " ++ Nat.repr i ++ ": prev_digest chain broken"

/-- The verification loop of `MockLedgerProvider.verify_chain`: at
position `i` recompute the digest and compare with the stored one, then
(when a predecessor exists, i.e. `i > 0`) compare `prev_digest` with the
predecessor's stored digest; stop at the first failure. `prev` carries
the stored digest of the preceding entry. -/
def verifyFrom (i : Nat) (prev : Option String) :
    List LedgerEntry → Bool × String
  | [] => (true, "ok")
  | e :: rest =>
      if e.digest ≠ computeDigest e then (false, digestMismatchMsg i)
      else
        match prev with
        | some d =>
            if e.prev_digest ≠ d then (false, chainBrokenMsg i)
            else verifyFrom (i + 1) (some e.digest) rest
        | none => verifyFrom (i + 1) (some e.digest) rest

/-- Full-chain verification, after `MockLedgerProvider.verify_chain`
(the early return on an empty conversation coincides with the loop on
the empty list). -/
def verifyChain (s : Store) (cid : String) : Bool × String :=
  verifyFrom 0 none (s cid)

/-- The public API `append_turn`: construct a fresh entry carrying the
caller's conversation id, role, content and metadata, and delegate to
the provider's append. The source performs no validation of any
argument on this path. -/
def appendTurn (s : Store) (conversation_id role content : String)
    (metadata : List (String × String)) : LedgerEntry × Store :=
  mockAppend s { conversation_id := conversation_id, role := role,
                 content := content, metadata := metadata }

/-- Sequential appends: one `append_turn` call per `(role, content)`
pair, all on the same conversation. -/
def appendTurns (s : Store) (cid : String) :
    List (String × String) → Store
  | [] => s
  | (r, c) :: rest => appendTurns (appendTurn s cid r c []).2 cid rest

/-- The four role values enumerated by the module's docstring and by the
MCP tool schema (`"enum": ["user", "assistant", "system", "tool"]`). -/
def allowedRoles : List String := ["user", "assistant", "system", "tool"]

/-- Rewrite the entry at one position of a conversation (tampering with
the stored list without recomputing anything). Out-of-range positions
leave the list unchanged. -/
def modifyAt (f : LedgerEntry → LedgerEntry) : Nat → List LedgerEntry →
    List LedgerEntry
  | _, [] => []
  | 0, e :: r => f e :: r
  | n + 1, e :: r => e :: modifyAt f n r

/-- The conversation head as the immudb provider stores it under the
`__head__` key. -/
structure ImmHead where
  turn_index : Nat
  digest : String
deriving Repr, DecidableEq

/-- Decimal rendering of `turn_index` zero-padded to eight digits, after
`f"\x7bturn_index:08d\x7d"`. -/
def pad8Dec (n : Nat) : String :=
  let s := Nat.repr n
  if s.length < 8 then String.mk (List.replicate (8 - s.length) '0') ++ s else s

/-- Storage key of one entry in immudb, after `ImmudbProvider._entry_key`. -/
def immEntryKey (conversation_id : String) (turn_index : Nat) : String :=
  "conv:" ++ conversation_id ++ ":" ++ pad8Dec turn_index

/-- The head-read step of `ImmudbProvider._sync_append`. The Python code
wraps `self._client.get(head_key)` in `try/except Exception`, so a head
read that fails for any reason (missing key, but also a network or
server error) takes the fallback branch `turn_index = 0`,
`prev_digest = ""`; nothing distinguishes the two cases and no error is
re-raised. The result is the populated entry together with the key the
entry write then targets. -/
def immudbSyncAppend (headRead : Except String ImmHead)
    (entry : LedgerEntry) : LedgerEntry × String :=
  let e1 :=
    match headRead with
    | .ok head => { entry with turn_index := head.turn_index + 1,
                               prev_digest := head.digest }
    | .error _ => { entry with turn_index := 0, prev_digest := "" }
  let e2 := { e1 with digest := computeDigest e1 }
  (e2, immEntryKey e2.conversation_id e2.turn_index)

/-- The read step of `ImmudbProvider._sync_get_entry`: any failure of
the underlying `get` is caught and collapsed to `None`. -/
def immudbSyncGetEntry (raw : Except String LedgerEntry) :
    Option LedgerEntry :=
  match raw with
  | .ok e => some e
  | .error _ => none

/-- Well-formed chain segment: starting at index `i` with incoming digest
`prev`, every entry carries the conversation id, consecutive turn
indices, the predecessor's digest, and a digest that matches its own
canonical form. -/
def Chain (cid : String) : Nat → String → List LedgerEntry → Prop
  | _, _, [] => True
  | i, prev, e :: rest =>
      e.conversation_id = cid ∧ e.turn_index = i ∧ e.prev_digest = prev ∧
      e.digest = computeDigest e ∧ Chain cid (i + 1) e.digest rest

/-- Digest of the last entry of a segment, or the incoming digest when
the segment is empty — what the next appended entry must link to. -/
def lastDigest (prev : String) : List LedgerEntry → String
  | [] => prev
  | e :: rest => lastDigest e.digest rest

theorem lastDigest_append (prev : String) (l : List LedgerEntry)
    (e : LedgerEntry) : lastDigest prev (l ++ [e]) = e.digest := by
  induction l generalizing prev with
  | nil => rfl
  | cons f rest ih => exact ih f.digest

theorem Chain.turn_index_get {cid : String} {i : Nat} {prev : String}
    {l : List LedgerEntry} (h : Chain cid i prev l) :
    ∀ k (hk : k < l.length), (l.get ⟨k, hk⟩).turn_index = i + k := by
  induction l generalizing i prev with
  | nil => intro k hk; exact absurd hk (by simp)
  | cons e rest ih =>
      intro k hk
      match k with
      | 0 => simpa using h.2.1
      | k + 1 =>
          have hk' : k < rest.length := by
            simpa using Nat.lt_of_succ_lt_succ hk
          have hr := ih h.2.2.2.2 k hk'
          show (rest.get ⟨k, hk'⟩).turn_index = i + (k + 1)
          omega

theorem Chain.prev_get0 {cid : String} {i : Nat} {prev : String}
    {l : List LedgerEntry} (h : Chain cid i prev l) (h0 : 0 < l.length) :
    (l.get ⟨0, h0⟩).prev_digest = prev := by
  cases l with
  | nil => exact absurd h0 (by simp)
  | cons e rest => exact h.2.2.1

theorem Chain.link_get {cid : String} {i : Nat} {prev : String}
    {l : List LedgerEntry} (h : Chain cid i prev l) :
    ∀ k (hk : k + 1 < l.length),
      (l.get ⟨k + 1, hk⟩).prev_digest =
      (l.get ⟨k, Nat.lt_of_succ_lt hk⟩).digest := by
  induction l generalizing i prev with
  | nil => intro k hk; exact absurd hk (by simp)
  | cons e rest ih =>
      intro k hk
      match k with
      | 0 =>
          have hr : 0 < rest.length := by
            simpa using Nat.lt_of_succ_lt_succ hk
          show (rest.get ⟨0, hr⟩).prev_digest = e.digest
          exact h.2.2.2.2.prev_get0 hr
      | k + 1 =>
          have hk' : k + 1 < rest.length := by
            simpa using Nat.lt_of_succ_lt_succ hk
          show (rest.get ⟨k + 1, hk'⟩).prev_digest =
               (rest.get ⟨k, Nat.lt_of_succ_lt hk'⟩).digest
          exact ih h.2.2.2.2 k hk'

theorem Chain.digest_get {cid : String} {i : Nat} {prev : String}
    {l : List LedgerEntry} (h : Chain cid i prev l) :
    ∀ k (hk : k < l.length),
      (l.get ⟨k, hk⟩).digest = computeDigest (l.get ⟨k, hk⟩) := by
  induction l generalizing i prev with
  | nil => intro k hk; exact absurd hk (by simp)
  | cons e rest ih =>
      intro k hk
      match k with
      | 0 => exact h.2.2.2.1
      | k + 1 =>
          have hk' : k < rest.length := by
            simpa using Nat.lt_of_succ_lt_succ hk
          show (rest.get ⟨k, hk'⟩).digest = computeDigest (rest.get ⟨k, hk'⟩)
          exact ih h.2.2.2.2 k hk'

theorem Chain.cid_get {cid : String} {i : Nat} {prev : String}
    {l : List LedgerEntry} (h : Chain cid i prev l) :
    ∀ k (hk : k < l.length), (l.get ⟨k, hk⟩).conversation_id = cid := by
  induction l generalizing i prev with
  | nil => intro k hk; exact absurd hk (by simp)
  | cons e rest ih =>
      intro k hk
      match k with
      | 0 => exact h.1
      | k + 1 =>
          have hk' : k < rest.length := by
            simpa using Nat.lt_of_succ_lt_succ hk
          show (rest.get ⟨k, hk'⟩).conversation_id = cid
          exact ih h.2.2.2.2 k hk'

theorem Chain.last {cid : String} {i : Nat} {prev : String}
    {l : List LedgerEntry} (h : Chain cid i prev l) :
    ∀ e, l.getLast? = some e →
      e.turn_index + 1 = i + l.length ∧ e.digest = lastDigest prev l := by
  induction l generalizing i prev with
  | nil => intro e he; exact absurd he (by simp)
  | cons f rest ih =>
      intro e he
      cases rest with
      | nil =>
          have hef : e = f := by simpa using he.symm
          subst hef
          refine ⟨?_, by simp [lastDigest]⟩
          have := h.2.1
          simp only [List.length_singleton]
          omega
      | cons g t =>
          have he' : (g :: t).getLast? = some e := by
            simpa [List.getLast?_cons_cons] using he
          obtain ⟨ha, hb⟩ := ih h.2.2.2.2 e he'
          refine ⟨?_, by simpa [lastDigest] using hb⟩
          simp only [List.length_cons] at ha ⊢
          omega

theorem Chain.snoc {cid : String} {e : LedgerEntry}
    (hcid : e.conversation_id = cid)
    (hd : e.digest = computeDigest e) {l : List LedgerEntry} :
    ∀ {i : Nat} {prev : String}, Chain cid i prev l →
      e.turn_index = i + l.length → e.prev_digest = lastDigest prev l →
      Chain cid i prev (l ++ [e]) := by
  induction l with
  | nil =>
      intro i prev _ hti hpd
      exact ⟨hcid, by simpa using hti, by simpa [lastDigest] using hpd, hd,
             trivial⟩
  | cons f rest ih =>
      intro i prev h hti hpd
      refine ⟨h.1, h.2.1, h.2.2.1, h.2.2.2.1, ?_⟩
      refine ih h.2.2.2.2 ?_ (by simpa [lastDigest] using hpd)
      simp only [List.length_cons] at hti
      omega

theorem Chain.take {cid : String} {l : List LedgerEntry} :
    ∀ {i : Nat} {prev : String}, Chain cid i prev l → ∀ t,
      Chain cid i prev (l.take t) := by
  induction l with
  | nil => intro i prev _ t; simp [List.take_nil]; trivial
  | cons e rest ih =>
      intro i prev h t
      cases t with
      | zero => trivial
      | succ n => exact ⟨h.1, h.2.1, h.2.2.1, h.2.2.2.1, ih h.2.2.2.2 n⟩

theorem computeDigest_mk (cidv : String) (ti : Nat) (r co : String)
    (m : List (String × String)) (p dg : String) :
    computeDigest ⟨cidv, ti, r, co, m, p, dg⟩ =
    sha256Hex (canonicalBytes p cidv ti r co) := rfl

theorem mockAppend_spec (s : Store) (f : LedgerEntry)
    (hc : Chain f.conversation_id 0 "" (s f.conversation_id)) :
    (mockAppend s f).2 f.conversation_id
      = s f.conversation_id ++ [(mockAppend s f).1] ∧
    Chain f.conversation_id 0 "" ((mockAppend s f).2 f.conversation_id) ∧
    (mockAppend s f).1.conversation_id = f.conversation_id ∧
    (mockAppend s f).1.role = f.role ∧
    (mockAppend s f).1.content = f.content ∧
    (mockAppend s f).1.metadata = f.metadata ∧
    (mockAppend s f).1.turn_index = (s f.conversation_id).length := by
  cases hl : (s f.conversation_id).getLast? with
  | none =>
      have hnil : s f.conversation_id = [] := by
        cases hsl : s f.conversation_id with
        | nil => rfl
        | cons a t =>
            rw [hsl] at hl
            have : (a :: t).getLast?.isSome := by
              rw [List.getLast?_isSome]; simp
            rw [hl] at this
            simp at this
      refine ⟨?_, ?_, ?_, ?_, ?_, ?_, ?_⟩ <;>
        simp [mockAppend, setTurns, hl, hnil, Chain, computeDigest_mk]
  | some last =>
      obtain ⟨hti, hdig⟩ := Chain.last hc last hl
      have happ : (mockAppend s f).2 f.conversation_id
          = s f.conversation_id ++ [(mockAppend s f).1] := by
        simp [mockAppend, setTurns, hl]
      refine ⟨happ, ?_, ?_, ?_, ?_, ?_, ?_⟩
      · rw [happ]
        refine Chain.snoc ?_ ?_ hc ?_ ?_
        · simp [mockAppend, hl]
        · simp [mockAppend, hl, computeDigest_mk]
        · simp [mockAppend, hl]; omega
        · simp [mockAppend, hl, hdig]
      · simp [mockAppend, hl]
      · simp [mockAppend, hl]
      · simp [mockAppend, hl]
      · simp [mockAppend, hl]
      · simp [mockAppend, hl]; omega

theorem appendTurn_spec (s : Store) (cid r c : String)
    (md : List (String × String)) (hc : Chain cid 0 "" (s cid)) :
    (appendTurn s cid r c md).2 cid
      = s cid ++ [(appendTurn s cid r c md).1] ∧
    Chain cid 0 "" ((appendTurn s cid r c md).2 cid) ∧
    (appendTurn s cid r c md).1.conversation_id = cid ∧
    (appendTurn s cid r c md).1.role = r ∧
    (appendTurn s cid r c md).1.content = c ∧
    (appendTurn s cid r c md).1.metadata = md ∧
    (appendTurn s cid r c md).1.turn_index = (s cid).length :=
  mockAppend_spec s
    { conversation_id := cid, role := r, content := c, metadata := md } hc

theorem appendTurns_chain (cid : String) (specs : List (String × String)) :
    ∀ s : Store, Chain cid 0 "" (s cid) →
      Chain cid 0 "" ((appendTurns s cid specs) cid) ∧
      ((appendTurns s cid specs) cid).length
        = (s cid).length + specs.length := by
  induction specs with
  | nil => intro s hc; exact ⟨hc, by simp [appendTurns]⟩
  | cons rc rest ih =>
      intro s hc
      obtain ⟨r, c⟩ := rc
      have hm := appendTurn_spec s cid r c [] hc
      have hlen : ((appendTurn s cid r c []).2 cid).length
          = (s cid).length + 1 := by
        rw [hm.1]; simp
      obtain ⟨h1, h2⟩ := ih (appendTurn s cid r c []).2 hm.2.1
      refine ⟨h1, ?_⟩
      show (appendTurns (appendTurn s cid r c []).2 cid rest cid).length
        = (s cid).length + ((r, c) :: rest).length
      rw [h2, hlen]
      simp only [List.length_cons]
      omega

theorem verifyFrom_ok {cid : String} {l : List LedgerEntry} :
    ∀ {i : Nat} {prev : String}, Chain cid i prev l →
      ∀ pOpt : Option String, (pOpt = none ∨ pOpt = some prev) →
        verifyFrom i pOpt l = (true, "ok") := by
  induction l with
  | nil => intro i prev _ pOpt _; cases pOpt <;> rfl
  | cons e rest ih =>
      intro i prev h pOpt hp
      have hd : ¬ e.digest ≠ computeDigest e := by simpa using h.2.2.2.1
      rcases hp with hp | hp
      · subst hp
        simp only [verifyFrom, if_neg hd]
        exact ih h.2.2.2.2 (some e.digest) (Or.inr rfl)
      · subst hp
        have hl2 : ¬ e.prev_digest ≠ prev := by simpa using h.2.2.1
        simp only [verifyFrom, if_neg hd, if_neg hl2]
        exact ih h.2.2.2.2 (some e.digest) (Or.inr rfl)

/-- Entries of one conversation after appending each `(role, content)`
pair through `append_turn`, starting from an empty provider. -/
def chainOf (cid : String) (specs : List (String × String)) :
    List LedgerEntry :=
  (appendTurns emptyStore cid specs) cid

/-- C1: appending `n` turns sequentially from an empty store yields
`turn_index` values exactly `0..n-1` in order with no gaps; the first
entry has empty `prev_digest`; and each later entry's `prev_digest`
equals its predecessor's `digest`. -/
theorem C1_sequential_append_chain (cid : String)
    (specs : List (String × String)) :
    (chainOf cid specs).length = specs.length ∧
    (∀ k (hk : k < (chainOf cid specs).length),
      ((chainOf cid specs).get ⟨k, hk⟩).turn_index = k) ∧
    (∀ h0 : 0 < (chainOf cid specs).length,
      ((chainOf cid specs).get ⟨0, h0⟩).prev_digest = "") ∧
    (∀ k (hk : k + 1 < (chainOf cid specs).length),
      ((chainOf cid specs).get ⟨k + 1, hk⟩).prev_digest
        = ((chainOf cid specs).get ⟨k, Nat.lt_of_succ_lt hk⟩).digest) := by
  have h := appendTurns_chain cid specs emptyStore trivial
  refine ⟨?_, ?_, ?_, ?_⟩
  · simpa [chainOf, emptyStore] using h.2
  · intro k hk; simpa using h.1.turn_index_get k hk
  · intro h0; exact h.1.prev_get0 h0
  · intro k hk; exact h.1.link_get k hk

/-- Witness for C1 at the spec's concrete two-turn scenario. -/
theorem C1_sequential_append_chain_witness :
    (chainOf "c1" [("user", "Hi"), ("assistant", "Hello!")]).length = 2 ∧
    ((chainOf "c1" [("user", "Hi"), ("assistant", "Hello!")]).get
      ⟨1, by decide⟩).turn_index = 1 ∧
    ((chainOf "c1" [("user", "Hi"), ("assistant", "Hello!")]).get
      ⟨0, by decide⟩).prev_digest = "" ∧
    ((chainOf "c1" [("user", "Hi"), ("assistant", "Hello!")]).get
      ⟨1, by decide⟩).prev_digest
      = ((chainOf "c1" [("user", "Hi"), ("assistant", "Hello!")]).get
          ⟨0, by decide⟩).digest := by
  have h := C1_sequential_append_chain "c1" [("user", "Hi"), ("assistant", "Hello!")]
  exact ⟨h.1, h.2.1 1 (by decide), h.2.2.1 (by decide), h.2.2.2 0 (by decide)⟩

/-- C3: verification succeeds on any conversation produced solely
through `append_turn`, and on any conversation with zero entries. -/
theorem C3_verify_untampered (cid : String)
    (specs : List (String × String)) :
    verifyChain (appendTurns emptyStore cid specs) cid = (true, "ok") ∧
    (∀ (s : Store) (c : String), s c = [] →
      verifyChain s c = (true, "ok")) := by
  constructor
  · have h := appendTurns_chain cid specs emptyStore trivial
    exact verifyFrom_ok h.1 none (Or.inl rfl)
  · intro s c hc
    simp [verifyChain, hc, verifyFrom]

/-- Witness for C3: a one-turn conversation verifies, and an unknown
conversation id (zero entries) verifies. -/
theorem C3_verify_untampered_witness :
    verifyChain (appendTurns emptyStore "c1" [("user", "Hi")]) "c1"
      = (true, "ok") ∧
    verifyChain emptyStore "nonexistent" = (true, "ok") :=
  ⟨(C3_verify_untampered "c1" [("user", "Hi")]).1,
   (C3_verify_untampered "c1" []).2 emptyStore "nonexistent" rfl⟩

theorem verifyFrom_append_mismatch {cid : String} {good : List LedgerEntry} :
    ∀ {i : Nat} {prev : String}, Chain cid i prev good →
      ∀ pOpt : Option String, (pOpt = none ∨ pOpt = some prev) →
      ∀ (e : LedgerEntry) (rest : List LedgerEntry),
        e.digest ≠ computeDigest e →
        verifyFrom i pOpt (good ++ e :: rest)
          = (false, digestMismatchMsg (i + good.length)) := by
  induction good with
  | nil =>
      intro i prev _ pOpt hp e rest he
      rcases hp with hp | hp <;> subst hp <;>
        simp [verifyFrom, if_pos he]
  | cons f restg ih =>
      intro i prev h pOpt hp e rest he
      have hd : ¬ f.digest ≠ computeDigest f := by simpa using h.2.2.2.1
      have tail := ih h.2.2.2.2 (some f.digest) (Or.inr rfl) e rest he
      have harith : i + 1 + restg.length = i + (restg.length + 1) := by omega
      rcases hp with hp | hp
      · subst hp
        show verifyFrom i none (f :: (restg ++ e :: rest)) = _
        simp only [verifyFrom, if_neg hd]
        rw [tail]
        simp [digestMismatchMsg, harith]
      · subst hp
        have hl2 : ¬ f.prev_digest ≠ prev := by simpa using h.2.2.1
        show verifyFrom i (some prev) (f :: (restg ++ e :: rest)) = _
        simp only [verifyFrom, if_neg hd, if_neg hl2]
        rw [tail]
        simp [digestMismatchMsg, harith]

/-- Position-indexed transcription of the two checks the verification
loop runs at index `k`: the recomputed digest must match the stored one,
and (when a predecessor exists; for `k = 0` the role of predecessor is
played by `pOpt`) `prev_digest` must match the predecessor's stored
digest. Out-of-range positions pass vacuously. -/
def checkAtRel (pOpt : Option String) (l : List LedgerEntry) (k : Nat) :
    Bool :=
  match l[k]? with
  | none => true
  | some e =>
      (e.digest == computeDigest e) &&
      (match (if k = 0 then pOpt else (l[k-1]?).map LedgerEntry.digest) with
       | some d => e.prev_digest == d
       | none => true)

theorem checkAtRel_cons (pOpt : Option String) (e : LedgerEntry)
    (rest : List LedgerEntry) (k : Nat) :
    checkAtRel pOpt (e :: rest) (k + 1) = checkAtRel (some e.digest) rest k := by
  cases k <;> simp [checkAtRel]

theorem verifyFrom_first_fail {l : List LedgerEntry} :
    ∀ {i : Nat} (pOpt : Option String) {msg : String},
      verifyFrom i pOpt l = (false, msg) →
      ∃ k, (msg = digestMismatchMsg (i + k) ∨ msg = chainBrokenMsg (i + k)) ∧
        checkAtRel pOpt l k = false ∧
        ∀ j, j < k → checkAtRel pOpt l j = true := by
  induction l with
  | nil =>
      intro i pOpt msg h
      cases pOpt <;> simp [verifyFrom] at h
  | cons e rest ih =>
      intro i pOpt msg h
      by_cases hd : e.digest ≠ computeDigest e
      · simp only [verifyFrom, if_pos hd] at h
        injection h with h1 h2
        refine ⟨0, Or.inl (by rw [← h2]; simp), ?_, by omega⟩
        have : (e.digest == computeDigest e) = false := by
          simpa using hd
        simp [checkAtRel, this]
      · have hdig : (e.digest == computeDigest e) = true := by
          simpa using not_not.mp hd
        cases pOpt with
        | none =>
            simp only [verifyFrom, if_neg hd] at h
            obtain ⟨k, hmsg, hfail, hpass⟩ := ih (some e.digest) h
            refine ⟨k + 1, ?_, ?_, ?_⟩
            · have : i + 1 + k = i + (k + 1) := by omega
              rcases hmsg with hm | hm
              · exact Or.inl (by rw [hm, this])
              · exact Or.inr (by rw [hm, this])
            · rw [checkAtRel_cons]; exact hfail
            · intro j hj
              cases j with
              | zero => simp [checkAtRel, hdig]
              | succ j' =>
                  rw [checkAtRel_cons]
                  exact hpass j' (by omega)
        | some d =>
            simp only [verifyFrom, if_neg hd] at h
            by_cases hpd : e.prev_digest ≠ d
            · rw [if_pos hpd] at h
              injection h with h1 h2
              refine ⟨0, Or.inr (by rw [← h2]; simp), ?_, by omega⟩
              have : (e.prev_digest == d) = false := by simpa using hpd
              simp [checkAtRel, hdig, this]
            · rw [if_neg hpd] at h
              have hpdeq : (e.prev_digest == d) = true := by
                simpa using not_not.mp hpd
              obtain ⟨k, hmsg, hfail, hpass⟩ := ih (some e.digest) h
              refine ⟨k + 1, ?_, ?_, ?_⟩
              · have : i + 1 + k = i + (k + 1) := by omega
                rcases hmsg with hm | hm
                · exact Or.inl (by rw [hm, this])
                · exact Or.inr (by rw [hm, this])
              · rw [checkAtRel_cons]; exact hfail
              · intro j hj
                cases j with
                | zero => simp [checkAtRel, hdig, hpdeq]
                | succ j' =>
                    rw [checkAtRel_cons]
                    exact hpass j' (by omega)

theorem modifyAt_eq (f : LedgerEntry → LedgerEntry) :
    ∀ (l : List LedgerEntry) (t : Nat) (ht : t < l.length),
      modifyAt f t l = l.take t ++ f (l.get ⟨t, ht⟩) :: l.drop (t + 1) := by
  intro l
  induction l with
  | nil => intro t ht; exact absurd ht (by simp)
  | cons e r ih =>
      intro t ht
      cases t with
      | zero => simp [modifyAt]
      | succ n =>
          have hn : n < r.length := by simpa using Nat.lt_of_succ_lt_succ ht
          show e :: modifyAt f n r
            = e :: (r.take n ++ f (r.get ⟨n, hn⟩) :: r.drop (n + 1))
          rw [ih n hn]

/-- Tampering with the entry at position `t` of an append-built chain in
a way that keeps the stored digest but changes the canonical form makes
verification fail at exactly position `t` with the digest-mismatch
message (the digest check runs before the link check). -/
theorem tamperedVerify (cid : String) (specs : List (String × String))
    (t : Nat) (ht : t < (chainOf cid specs).length)
    (f : LedgerEntry → LedgerEntry)
    (hdigkeep : (f ((chainOf cid specs).get ⟨t, ht⟩)).digest
                 = ((chainOf cid specs).get ⟨t, ht⟩).digest)
    (hne : computeDigest (f ((chainOf cid specs).get ⟨t, ht⟩))
            ≠ ((chainOf cid specs).get ⟨t, ht⟩).digest) :
    verifyChain (setTurns (appendTurns emptyStore cid specs) cid
      (modifyAt f t (chainOf cid specs))) cid
      = (false, digestMismatchMsg t) := by
  have hchain : Chain cid 0 "" (chainOf cid specs) :=
    (appendTurns_chain cid specs emptyStore trivial).1
  have hv : verifyChain (setTurns (appendTurns emptyStore cid specs) cid
      (modifyAt f t (chainOf cid specs))) cid
      = verifyFrom 0 none (modifyAt f t (chainOf cid specs)) := by
    simp [verifyChain, setTurns]
  rw [hv, modifyAt_eq f _ t ht]
  have hpre : Chain cid 0 "" ((chainOf cid specs).take t) := hchain.take t
  have he : (f ((chainOf cid specs).get ⟨t, ht⟩)).digest
      ≠ computeDigest (f ((chainOf cid specs).get ⟨t, ht⟩)) := by
    rw [hdigkeep]
    exact fun hcontra => hne hcontra.symm
  rw [verifyFrom_append_mismatch hpre none (Or.inl rfl) _ _ he]
  have htake : ((chainOf cid specs).take t).length = t := by
    simp [List.length_take]
    omega
  rw [htake]
  simp

/-- C4: content tampering at position `t` (stored digest kept) is
reported as `turn t: digest mismatch`; rewriting `prev_digest` at
position `t` is likewise reported at exactly position `t` (the digest
covers `prev_digest`, so the digest check fires first); and whenever
verification fails, the reported index is the smallest position at
which one of the two per-entry checks fails. The collision hypotheses
(`computeDigest ... ≠ ... .digest`) state that the tampered canonical
form does not collide with the stored digest — unprovable in general
for a cryptographic hash, and discharged by computation at the witness
inputs. -/
theorem C4_verify_reports_first_failure :
    (∀ (cid : String) (specs : List (String × String)) (t : Nat)
        (ht : t < (chainOf cid specs).length) (c2 : String),
        computeDigest { (chainOf cid specs).get ⟨t, ht⟩ with content := c2 }
          ≠ ((chainOf cid specs).get ⟨t, ht⟩).digest →
        verifyChain (setTurns (appendTurns emptyStore cid specs) cid
          (modifyAt (fun e => { e with content := c2 }) t (chainOf cid specs)))
          cid = (false, digestMismatchMsg t)) ∧
    (∀ (cid : String) (specs : List (String × String)) (t : Nat)
        (ht : t < (chainOf cid specs).length) (v : String),
        computeDigest { (chainOf cid specs).get ⟨t, ht⟩ with prev_digest := v }
          ≠ ((chainOf cid specs).get ⟨t, ht⟩).digest →
        verifyChain (setTurns (appendTurns emptyStore cid specs) cid
          (modifyAt (fun e => { e with prev_digest := v }) t
            (chainOf cid specs)))
          cid = (false, digestMismatchMsg t)) ∧
    (∀ (l : List LedgerEntry) (msg : String),
        verifyFrom 0 none l = (false, msg) →
        ∃ k, (msg = digestMismatchMsg k ∨ msg = chainBrokenMsg k) ∧
          checkAtRel none l k = false ∧
          ∀ j, j < k → checkAtRel none l j = true) := by
  refine ⟨?_, ?_, ?_⟩
  · intro cid specs t ht c2 hne
    exact tamperedVerify cid specs t ht _ rfl hne
  · intro cid specs t ht v hne
    exact tamperedVerify cid specs t ht _ rfl hne
  · intro l msg h
    simpa using verifyFrom_first_fail none h

/-- Witness for C4 on a one-turn conversation: content tampering and
link tampering at position 0 are both caught there, and a stored entry
whose digest was never computed fails at position 0 as the least
failing index. -/
theorem C4_verify_reports_first_failure_witness :
    verifyChain (setTurns (appendTurns emptyStore "c1" [("user", "Hi")]) "c1"
      (modifyAt (fun e => { e with content := "tampered" }) 0
        (chainOf "c1" [("user", "Hi")]))) "c1"
      = (false, digestMismatchMsg 0) ∧
    verifyChain (setTurns (appendTurns emptyStore "c1" [("user", "Hi")]) "c1"
      (modifyAt (fun e => { e with prev_digest := "deadbeef" }) 0
        (chainOf "c1" [("user", "Hi")]))) "c1"
      = (false, digestMismatchMsg 0) ∧
    (∃ k, (digestMismatchMsg 0 = digestMismatchMsg k ∨
           digestMismatchMsg 0 = chainBrokenMsg k) ∧
      checkAtRel none
        [{ conversation_id := "c1", role := "user", content := "Hi" }] k
        = false ∧
      ∀ j, j < k →
        checkAtRel none
          [{ conversation_id := "c1", role := "user", content := "Hi" }] j
          = true) :=
  ⟨C4_verify_reports_first_failure.1 "c1" [("user", "Hi")] 0 (by decide)
    "tampered" (by decide),
   C4_verify_reports_first_failure.2.1 "c1" [("user", "Hi")] 0 (by decide)
    "deadbeef" (by decide),
   C4_verify_reports_first_failure.2.2
    [{ conversation_id := "c1", role := "user", content := "Hi" }]
    (digestMismatchMsg 0) (by decide)⟩

theorem hexChars_length (k : Nat) : ∀ n : Nat, (hexChars k n).length = k := by
  induction k with
  | zero => intro n; rfl
  | succ k ih => intro n; simp [hexChars, ih]

/-- Membership in the lowercase hex alphabet. -/
def isHexDigitChar (c : Char) : Prop := c ∈ "0123456789abcdef".toList

instance isHexDigitChar.dec : ∀ c, Decidable (isHexDigitChar c) :=
  fun c => inferInstanceAs (Decidable (c ∈ "0123456789abcdef".toList))

theorem hexDigit_isHex : ∀ m, m < 16 → isHexDigitChar (hexDigit m) := by decide

theorem hexChars_isHex (k : Nat) : ∀ (n : Nat), ∀ c ∈ hexChars k n,
    isHexDigitChar c := by
  induction k with
  | zero => intro n c hc; simp [hexChars] at hc
  | succ k ih =>
      intro n c hc
      simp only [hexChars, List.mem_append, List.mem_singleton] at hc
      rcases hc with hc | hc
      · exact ih (n / 16) c hc
      · subst hc; exact hexDigit_isHex _ (Nat.mod_lt n (by omega))

theorem hexOfHash_length (h8 : Hash8) : (hexOfHash h8).length = 64 := by
  simp [hexOfHash, hexChars_length]

theorem hexOfHash_isHex (h8 : Hash8) : ∀ c ∈ hexOfHash h8, isHexDigitChar c := by
  intro c hc
  simp only [hexOfHash, List.mem_append] at hc
  rcases hc with ((((((hc | hc) | hc) | hc) | hc) | hc) | hc) | hc <;>
    exact hexChars_isHex _ _ c hc

theorem sha256Hex_length (msg : List Nat) : (sha256Hex msg).length = 64 :=
  hexOfHash_length (sha256 msg)

theorem sha256Hex_isHex (msg : List Nat) :
    ∀ c ∈ (sha256Hex msg).toList, isHexDigitChar c :=
  hexOfHash_isHex (sha256 msg)

/-- C2: the stored digest is the SHA-256 hex digest of the single
canonical UTF-8 encoding of exactly the five fields `prev_digest`,
`conversation_id`, `turn_index`, `role`, `content`; it is 64 lowercase
hex characters; and it is a function of that field tuple alone (so the
bytes and digest cannot depend on construction order, whitespace or key
order — the encoder takes only the tuple). -/
theorem C2_canonical_digest :
    (∀ e : LedgerEntry, computeDigest e
      = sha256Hex (canonicalBytes e.prev_digest e.conversation_id
          e.turn_index e.role e.content)) ∧
    (∀ (cid : String) (specs : List (String × String)) (k : Nat)
        (hk : k < (chainOf cid specs).length),
      ((chainOf cid specs).get ⟨k, hk⟩).digest
        = sha256Hex (canonicalBytes
            ((chainOf cid specs).get ⟨k, hk⟩).prev_digest
            ((chainOf cid specs).get ⟨k, hk⟩).conversation_id
            ((chainOf cid specs).get ⟨k, hk⟩).turn_index
            ((chainOf cid specs).get ⟨k, hk⟩).role
            ((chainOf cid specs).get ⟨k, hk⟩).content)) ∧
    (∀ e : LedgerEntry, (computeDigest e).length = 64) ∧
    (∀ (e : LedgerEntry) (c : Char),
      c ∈ (computeDigest e).toList → isHexDigitChar c) ∧
    (∀ e1 e2 : LedgerEntry, e1.prev_digest = e2.prev_digest →
      e1.conversation_id = e2.conversation_id →
      e1.turn_index = e2.turn_index → e1.role = e2.role →
      e1.content = e2.content → computeDigest e1 = computeDigest e2) := by
  refine ⟨fun e => rfl, ?_, ?_, ?_, ?_⟩
  · intro cid specs k hk
    have hch : Chain cid 0 "" (chainOf cid specs) :=
      (appendTurns_chain cid specs emptyStore trivial).1
    rw [hch.digest_get k hk]
    rfl
  · intro e; exact sha256Hex_length _
  · intro e c hc; exact sha256Hex_isHex _ c hc
  · intro e1 e2 h1 h2 h3 h4 h5
    show sha256Hex (canonicalBytes e1.prev_digest e1.conversation_id
          e1.turn_index e1.role e1.content)
      = sha256Hex (canonicalBytes e2.prev_digest e2.conversation_id
          e2.turn_index e2.role e2.content)
    rw [h1, h2, h3, h4, h5]

/-- Witness for C2 on a concrete genesis entry; the two entries in the
last conjunct differ in `metadata` and in the stored `digest` field but
share the five canonical fields. -/
theorem C2_canonical_digest_witness :
    ((chainOf "c1" [("user", "Hi")]).get ⟨0, by decide⟩).digest
      = sha256Hex (canonicalBytes
          ((chainOf "c1" [("user", "Hi")]).get ⟨0, by decide⟩).prev_digest
          ((chainOf "c1" [("user", "Hi")]).get ⟨0, by decide⟩).conversation_id
          ((chainOf "c1" [("user", "Hi")]).get ⟨0, by decide⟩).turn_index
          ((chainOf "c1" [("user", "Hi")]).get ⟨0, by decide⟩).role
          ((chainOf "c1" [("user", "Hi")]).get ⟨0, by decide⟩).content) ∧
    (computeDigest { conversation_id := "c1", role := "user",
                     content := "Hi" }).length = 64 ∧
    isHexDigitChar 'c' ∧
    computeDigest { conversation_id := "c1", role := "user", content := "Hi",
                    metadata := [("model", "gpt")], digest := "junk" }
      = computeDigest { conversation_id := "c1", role := "user",
                        content := "Hi" } := by
  refine ⟨C2_canonical_digest.2.1 "c1" [("user", "Hi")] 0 (by decide),
          C2_canonical_digest.2.2.1 _, ?_,
          C2_canonical_digest.2.2.2.2 _ _ rfl rfl rfl rfl rfl⟩
  exact C2_canonical_digest.2.2.2.1
    { conversation_id := "c1", role := "user", content := "Hi" } 'c'
    (by decide)

/-- C5 counterexample: the claim says `append_turn` rejects a role
outside the four allowed values with an `InvalidArgument`-kind failure
before delegating to the provider. On the code, `append_turn` performs
no validation at all: with the out-of-vocabulary role `"wizard"` it
succeeds, returns an entry carrying that role, and stores it. -/
theorem C5_no_role_validation_counterexample :
    "wizard" ∉ allowedRoles ∧
    (appendTurn emptyStore "c1" "wizard" "hi" []).1.role = "wizard" ∧
    (appendTurn emptyStore "c1" "wizard" "hi" []).2 "c1"
      = [(appendTurn emptyStore "c1" "wizard" "hi" []).1] := by
  refine ⟨by decide, rfl, by decide⟩

/-- C5 amended: `append_turn` performs no role validation — for every
role string, allowed or not, it constructs the entry with that role,
delegates to the provider append, returns the stored entry, and the
entry is appended to the conversation; the four-role vocabulary appears
only in documentation and the MCP tool schema. -/
theorem C5_append_turn_accepts_any_role (s : Store)
    (cid role content : String) (md : List (String × String)) :
    (appendTurn s cid role content md).1.role = role ∧
    (appendTurn s cid role content md).1.content = content ∧
    (appendTurn s cid role content md).1.conversation_id = cid ∧
    (appendTurn s cid role content md).1.metadata = md ∧
    (appendTurn s cid role content md).2 cid
      = s cid ++ [(appendTurn s cid role content md).1] := by
  cases hl : (s cid).getLast? <;>
    simp [appendTurn, mockAppend, setTurns, hl]

theorem verifyFrom_modifyMeta (m : List (String × String)) :
    ∀ (l : List LedgerEntry) (t i : Nat) (p : Option String),
      verifyFrom i p (modifyAt (fun e => { e with metadata := m }) t l)
        = verifyFrom i p l := by
  intro l
  induction l with
  | nil => intro t i p; cases t <;> rfl
  | cons e r ih =>
      intro t i p
      cases t with
      | zero => rfl
      | succ n =>
          show verifyFrom i p
              (e :: modifyAt (fun e => { e with metadata := m }) n r)
            = verifyFrom i p (e :: r)
          simp only [verifyFrom]
          rw [ih n (i + 1) (some e.digest)]

/-- C6: metadata does not participate in the digest — entries differing
only in metadata have the same computed digest — and amending any
stored entry metadata after append leaves the result of `verify_chain`
unchanged for every conversation. -/
theorem C6_metadata_outside_digest :
    (∀ (e : LedgerEntry) (m1 m2 : List (String × String)),
      computeDigest { e with metadata := m1 }
        = computeDigest { e with metadata := m2 }) ∧
    (∀ (s : Store) (cid : String) (t : Nat) (m : List (String × String))
        (c : String),
      verifyChain (setTurns s cid
        (modifyAt (fun e => { e with metadata := m }) t (s cid))) c
        = verifyChain s c) := by
  refine ⟨fun e m1 m2 => rfl, ?_⟩
  intro s cid t m c
  by_cases hc : c = cid
  · subst hc
    simp [verifyChain, setTurns, verifyFrom_modifyMeta]
  · simp [verifyChain, setTurns, hc]

/-- C7: `get_conversation` returns the conversation in turn-index
ascending order, skipping the first `offset` entries and returning at
most `limit`: the page has length `min limit (n - offset)` and its
`j`-th element is the entry with `turn_index = offset + j`. -/
theorem C7_get_conversation_pagination (cid : String)
    (specs : List (String × String)) (limit offset : Nat) :
    (getConversation (appendTurns emptyStore cid specs) cid limit
        offset).length
      = min limit ((chainOf cid specs).length - offset) ∧
    ∀ j (hj : j < (getConversation (appendTurns emptyStore cid specs) cid
        limit offset).length),
      ((getConversation (appendTurns emptyStore cid specs) cid limit
          offset).get ⟨j, hj⟩).turn_index = offset + j := by
  have hch : Chain cid 0 "" (chainOf cid specs) :=
    (appendTurns_chain cid specs emptyStore trivial).1
  constructor
  · simp [getConversation, chainOf, List.length_take, List.length_drop]
  · intro j hj
    have hj2 : j < min limit ((chainOf cid specs).length - offset) := by
      simpa [getConversation, chainOf, List.length_take, List.length_drop]
        using hj
    have hoj : offset + j < (chainOf cid specs).length := by omega
    have hget : (getConversation (appendTurns emptyStore cid specs) cid limit
        offset).get ⟨j, hj⟩ = (chainOf cid specs).get ⟨offset + j, hoj⟩ := by
      simp only [getConversation, List.get_eq_getElem]
      rw [List.getElem_take, List.getElem_drop]
      simp [chainOf]
    rw [hget]
    have := hch.turn_index_get (offset + j) hoj
    omega

/-- Witness for C7: the spec scenario — `limit = 3`, `offset = 2` over a
six-entry conversation returns exactly the entries with `turn_index`
2, 3, 4 in order. -/
theorem C7_get_conversation_pagination_witness :
    (getConversation (appendTurns emptyStore "c1"
        [("user", "m0"), ("assistant", "m1"), ("user", "m2"),
         ("assistant", "m3"), ("user", "m4"), ("assistant", "m5")])
      "c1" 3 2).length = 3 ∧
    ((getConversation (appendTurns emptyStore "c1"
        [("user", "m0"), ("assistant", "m1"), ("user", "m2"),
         ("assistant", "m3"), ("user", "m4"), ("assistant", "m5")])
      "c1" 3 2).get ⟨0, by decide⟩).turn_index = 2 ∧
    ((getConversation (appendTurns emptyStore "c1"
        [("user", "m0"), ("assistant", "m1"), ("user", "m2"),
         ("assistant", "m3"), ("user", "m4"), ("assistant", "m5")])
      "c1" 3 2).get ⟨1, by decide⟩).turn_index = 3 ∧
    ((getConversation (appendTurns emptyStore "c1"
        [("user", "m0"), ("assistant", "m1"), ("user", "m2"),
         ("assistant", "m3"), ("user", "m4"), ("assistant", "m5")])
      "c1" 3 2).get ⟨2, by decide⟩).turn_index = 4 := by
  have h := C7_get_conversation_pagination "c1"
    [("user", "m0"), ("assistant", "m1"), ("user", "m2"),
     ("assistant", "m3"), ("user", "m4"), ("assistant", "m5")] 3 2
  exact ⟨by decide, h.2 0 (by decide), h.2 1 (by decide), h.2 2 (by decide)⟩

/-- C9: under asyncio's cooperative scheduler the body of
`MockLedgerProvider.append` contains no `await` between reading the
head and writing the entry, so it runs as one atomic step per call; an
interleaving of N concurrent appends to one conversation is therefore
some sequential order of the N payloads — quantified here as an
arbitrary permutation. Every such order produces entries whose
`turn_index` values are exactly `0, …, N-1`: no duplicates, no gaps. -/
theorem C9_concurrent_appends_complete_range (cid : String)
    (payloads interleaving : List (String × String))
    (hperm : interleaving.Perm payloads) :
    ((appendTurns emptyStore cid interleaving) cid).map
      (fun e => e.turn_index) = List.range payloads.length := by
  have h := appendTurns_chain cid interleaving emptyStore trivial
  have hlen : ((appendTurns emptyStore cid interleaving) cid).length
      = interleaving.length := by simpa [emptyStore] using h.2
  apply List.ext_get
  · simp [hlen, hperm.length_eq]
  · intro n h1 h2
    have hn : n < ((appendTurns emptyStore cid interleaving) cid).length := by
      simpa using h1
    have hti := h.1.turn_index_get n hn
    simp only [List.get_eq_getElem, List.getElem_map, List.getElem_range]
    simpa using hti

/-- Witness for C9: two concurrent appends arriving in the reversed
order still fill the index set exactly. -/
theorem C9_concurrent_appends_complete_range_witness :
    ((appendTurns emptyStore "c1" [("assistant", "B"), ("user", "A")]) "c1").map
      (fun e => e.turn_index) = List.range 2 := by
  have hp : List.Perm [("assistant", "B"), ("user", "A")]
      [("user", "A"), ("assistant", "B")] := by decide
  exact C9_concurrent_appends_complete_range "c1"
    [("user", "A"), ("assistant", "B")] [("assistant", "B"), ("user", "A")] hp

/-- C10: `get_entry` is total and returns `none` for every index outside
`[0, n)` — negative indices included (the `0 <= turn_index` guard runs
before any indexing, so Python's negative-index wraparound cannot
occur) — and for every unknown conversation id; within range it returns
the entry whose `turn_index` equals the argument. -/
theorem C10_get_entry_bounds :
    (∀ (s : Store) (cid : String) (i : Int), i < 0 →
      getEntry s cid i = none) ∧
    (∀ (s : Store) (cid : String) (i : Int),
      ((s cid).length : Int) ≤ i → getEntry s cid i = none) ∧
    (∀ (cid : String) (i : Int), getEntry emptyStore cid i = none) ∧
    (∀ (cid : String) (specs : List (String × String)) (i : Int),
      0 ≤ i → i < (specs.length : Int) →
      ∃ e, getEntry (appendTurns emptyStore cid specs) cid i = some e ∧
        (e.turn_index : Int) = i) := by
  refine ⟨?_, ?_, ?_, ?_⟩
  · intro s cid i hi
    have hcond : ¬ (0 ≤ i ∧ i < ((s cid).length : Int)) := by omega
    simp [getEntry, hcond]
  · intro s cid i hi
    have hcond : ¬ (0 ≤ i ∧ i < ((s cid).length : Int)) := by omega
    simp [getEntry, hcond]
  · intro cid i
    have hcond : ¬ (0 ≤ i ∧ i < ((emptyStore cid).length : Int)) := by
      show ¬ (0 ≤ i ∧ i < (([] : List LedgerEntry).length : Int))
      simp
    simp [getEntry, hcond]
  · intro cid specs i h0 hlt
    have hch := appendTurns_chain cid specs emptyStore trivial
    have hlen : ((appendTurns emptyStore cid specs) cid).length
        = specs.length := by simpa [emptyStore] using hch.2
    have hnat : i.toNat < ((appendTurns emptyStore cid specs) cid).length := by
      omega
    refine ⟨((appendTurns emptyStore cid specs) cid).get ⟨i.toNat, hnat⟩,
            ?_, ?_⟩
    · have hcond : 0 ≤ i ∧
          i < (((appendTurns emptyStore cid specs) cid).length : Int) := by
        constructor <;> omega
      simp only [getEntry, if_pos hcond]
      rw [List.getElem?_eq_getElem hnat]
      simp [List.get_eq_getElem]
    · have hti := hch.1.turn_index_get i.toNat hnat
      rw [show (((appendTurns emptyStore cid specs) cid).get
            ⟨i.toNat, hnat⟩).turn_index = i.toNat by simpa using hti]
      omega

/-- Witness for C10: a negative index, an index past the end, an unknown
conversation id, and an in-range index on a one-turn conversation. -/
theorem C10_get_entry_bounds_witness :
    getEntry emptyStore "c" (-1) = none ∧
    getEntry (appendTurns emptyStore "c1" [("user", "Hi")]) "c1" 5 = none ∧
    getEntry emptyStore "unknown" 0 = none ∧
    (∃ e, getEntry (appendTurns emptyStore "c1" [("user", "Hi")]) "c1" 0
        = some e ∧ (e.turn_index : Int) = 0) :=
  ⟨C10_get_entry_bounds.1 emptyStore "c" (-1) (by decide),
   C10_get_entry_bounds.2.1 (appendTurns emptyStore "c1" [("user", "Hi")])
    "c1" 5 (by decide),
   C10_get_entry_bounds.2.2.1 "unknown" 0,
   C10_get_entry_bounds.2.2.2 "c1" [("user", "Hi")] 0 (by decide) (by decide)⟩

/-- C8 (the code at the failing input): when the head read inside the
immudb provider's append raises — a missing key is indistinguishable
here from a connection or server failure, since the source catches bare
`Exception` — the failure is not surfaced: the entry is silently given
`turn_index = 0` and `prev_digest = ""` and its write targets the
genesis key of the conversation, overwriting an existing chain's first
entry; the provider's entry read likewise collapses any failure to
`None`. -/
theorem C8_immudb_swallows_head_read_failure (err : String)
    (entry : LedgerEntry) :
    (immudbSyncAppend (Except.error err) entry).1.turn_index = 0 ∧
    (immudbSyncAppend (Except.error err) entry).1.prev_digest = "" ∧
    (immudbSyncAppend (Except.error err) entry).2
      = immEntryKey entry.conversation_id 0 ∧
    immudbSyncGetEntry (Except.error err) = none :=
  ⟨rfl, rfl, rfl, rfl⟩

end Ledger
